import Mathlib

/-!
# CVScanPro — verification of the scoring/ranking pipeline

A shallow embedding of the resume-ranking pipeline of the CVScanPro
repository (`src/ranker.py`, `src/embeddings.py`, `src/text_processor.py`),
together with theorems settling the specification claims about it.

Modelling conventions:
* Python floats are modelled as exact rationals (`ℚ`); the float square
  root used inside `numpy.linalg.norm` is kept abstract (an arbitrary
  function `ℚ → ℚ`), so every bound proved about the similarity score
  holds whatever numerical noise the real float computation produces.
* Python strings are modelled as `String` / `List Char`; `a in b` on
  strings is bidirectional-blind substring containment, modelled by an
  executable infix test on character lists.
* Python lists are `List`, Python dicts of fixed shape are structures.
-/

set_option maxRecDepth 16384
set_option maxHeartbeats 2000000

namespace CVScanPro

/-! ## Character and string helpers -/

/-- Python `str.lower()` (ASCII case folding, as used by the pipeline). -/
def lowerStr (s : String) : String := String.mk (s.toList.map Char.toLower)

/-- `a` is a prefix of `b` (on character lists), executable. -/
def prefixL : List Char → List Char → Bool
  | [], _ => true
  | _ :: _, [] => false
  | a :: as, b :: bs => a = b && prefixL as bs

/-- Python `a in b` on strings: `a` occurs as a contiguous substring of `b`. -/
def infixL (a : List Char) : List Char → Bool
  | [] => prefixL a []
  | c :: cs => prefixL a (c :: cs) || infixL a cs

/-- Python `a in b` on `String`s. -/
def pyIn (a b : String) : Bool := infixL a.toList b.toList

/-! ## `src/ranker.py` — the match scorers -/

/-- `calculate_skills_match` (src/ranker.py): 0 if either side lists no
skills, else the fraction of job skills having a case-insensitive
bidirectional substring match among the resume skills. -/
def calculate_skills_match (job_skills resume_skills : List String) : ℚ :=
  if job_skills = [] then 0
  else if resume_skills = [] then 0
  else
    let job_skills_lower := job_skills.map lowerStr
    let resume_skills_lower := resume_skills.map lowerStr
    let matching_skills :=
      (job_skills_lower.filter (fun job_skill =>
        resume_skills_lower.any (fun resume_skill =>
          pyIn job_skill resume_skill || pyIn resume_skill job_skill))).length
    (matching_skills : ℚ) / (job_skills.length : ℚ)

/-- The fixed degree-level keyword list of `calculate_education_match`. -/
def education_keywords : List String :=
  ["bachelor", "master", "phd", "degree", "diploma", "certificate"]

/-- Points one (lower-cased) job-education phrase collects while the inner
`for resume_edu in resume_edu_lower` loop of `calculate_education_match`
runs: scanning the resume phrases in order, a bidirectional substring match
adds 1 and stops the scan; otherwise a shared degree keyword adds 0.5 and
the scan continues (the `break` in the source only leaves the keyword
loop, not the resume loop). -/
def eduPoints (job_edu : String) : List String → ℚ
  | [] => 0
  | resume_edu :: rest =>
    if pyIn job_edu resume_edu || pyIn resume_edu job_edu then 1
    else if education_keywords.any (fun k => pyIn k job_edu && pyIn k resume_edu) then
      1/2 + eduPoints job_edu rest
    else eduPoints job_edu rest

/-- `calculate_education_match` (src/ranker.py). -/
def calculate_education_match (job_education resume_education : List String) : ℚ :=
  if job_education = [] then 1
  else if resume_education = [] then 0
  else
    let job_edu_lower := job_education.map lowerStr
    let resume_edu_lower := resume_education.map lowerStr
    let matched := (job_edu_lower.map (fun job_edu => eduPoints job_edu resume_edu_lower)).sum
    min 1 (matched / (job_education.length : ℚ))

/-! ### Years-of-experience extraction

`calculate_experience_match` runs `re.findall(r'(\d+)[\+]?\s*(year|yr|years|yrs)', exp)`
over each lower-cased experience phrase and keeps the numeric groups.
The scan below is the same left-to-right, non-overlapping matching:
a maximal digit run, an optional `+`, optional whitespace, then a unit
beginning with `year` or `yr`.  (Starting the next search before the unit
is harmless: the unit region contains no digit, so no extra match can
begin there, and a failed digit run cannot succeed from any of its
proper suffixes since the continuation after the digits is identical.) -/

/-- Python `\d` (ASCII digits; the pipeline text is ASCII). -/
def isDigitC (c : Char) : Bool := '0' ≤ c && c ≤ '9'

/-- Python `\s` character class. -/
def isSpaceC (c : Char) : Bool :=
  c = ' ' || c = '\t' || c = '\n' || c = '\x0d' || c = '\x0c' || c = '\x0b'

/-- Numeric value of a digit run, as `int()` reads it. -/
def digitsToNat (ds : List Char) : ℕ :=
  ds.foldl (fun n c => 10 * n + (c.toNat - '0'.toNat)) 0

/-- After a digit run, does `[\+]?\s*(year|yr|years|yrs)` match here? -/
def yearsUnitAfter (l : List Char) : Bool :=
  let l1 := match l with
    | '+' :: rest => rest
    | rest => rest
  let l2 := l1.dropWhile isSpaceC
  prefixL "year".toList l2 || prefixL "yr".toList l2

/-- Scanner for `re.findall(r'(\d+)[\+]?\s*(year|yr|years|yrs)', ·)`.
The fuel argument (at least the length of the list, see `findYears`)
only forces structural recursion; each step consumes at least one
character. -/
def findYearsAux : ℕ → List Char → List ℕ
  | 0, _ => []
  | _ + 1, [] => []
  | fuel + 1, c :: cs =>
    if isDigitC c then
      let ds := (c :: cs).takeWhile isDigitC
      let rest := cs.dropWhile isDigitC
      (if yearsUnitAfter rest then [digitsToNat ds] else []) ++ findYearsAux fuel rest
    else findYearsAux fuel cs

/-- All numbers produced by `re.findall(r'(\d+)[\+]?\s*(year|yr|years|yrs)', ·)`. -/
def findYears (l : List Char) : List ℕ := findYearsAux l.length l

/-- Python `max` over a (nonempty, in use) list of naturals. -/
def listMax (l : List ℕ) : ℕ := l.foldl max 0

/-- All years `calculate_experience_match` extracts from a list of
experience phrases (the `job_years` / `resume_years` lists). -/
def extractedYears (exps : List String) : List ℕ :=
  ((exps.map lowerStr).map (fun e => findYears e.toList)).flatten

/-- `calculate_experience_match` (src/ranker.py). -/
def calculate_experience_match (job_experience resume_experience : List String) : ℚ :=
  if job_experience = [] then 1
  else if resume_experience = [] then 0
  else
    let job_exp_lower := job_experience.map lowerStr
    let resume_exp_lower := resume_experience.map lowerStr
    let job_years := (job_exp_lower.map (fun e => findYears e.toList)).flatten
    let resume_years := (resume_exp_lower.map (fun e => findYears e.toList)).flatten
    if job_years ≠ [] ∧ resume_years ≠ [] then
      let max_job_years := listMax job_years
      let max_resume_years := listMax resume_years
      if max_resume_years ≥ max_job_years then 1
      else (max_resume_years : ℚ) / (max_job_years : ℚ)
    else
      let matched := (job_exp_lower.filter (fun job_exp =>
        resume_exp_lower.any (fun resume_exp =>
          pyIn job_exp resume_exp || pyIn resume_exp job_exp))).length
      min 1 ((matched : ℚ) / (job_experience.length : ℚ))

/-! ## `src/embeddings.py` -/

/-- Dot product (`np.dot`) of two equally-long float vectors. -/
def dotQ (a b : List ℚ) : ℚ := (List.zipWith (· * ·) a b).sum

/-- Sum of squares, the radicand of `np.linalg.norm`. -/
def sumSq (a : List ℚ) : ℚ := dotQ a a

/-- `np.all(v == 0)`. -/
def allZero (v : List ℚ) : Bool := v.all (fun x => x = 0)

/-- `calculate_similarity` (src/embeddings.py).  The float square root
inside `np.linalg.norm` is abstracted as an arbitrary `sqrt : ℚ → ℚ`,
so everything proved below holds for every possible floating-point
realisation of the norm. -/
def calculate_similarity (sqrt : ℚ → ℚ) (embedding1 embedding2 : List ℚ) : ℚ :=
  if allZero embedding1 || allZero embedding2 then 0
  else
    let similarity := dotQ embedding1 embedding2 /
      (sqrt (sumSq embedding1) * sqrt (sumSq embedding2))
    max 0 (min 1 similarity)

/-- `get_embedding` (src/embeddings.py), one call.  The outcome of the
sklearn `fit_transform`/`transform` call inside the `try` block is kept
abstract: `raw = none` models any exception raised there (swallowed by
the `except` branch), `raw = some e` a successfully produced raw vector. -/
def get_embedding (text : String) (raw : Option (List ℚ)) : List ℚ :=
  if text = "" then List.replicate 384 0
  else
    match raw with
    | none => List.replicate 384 0
    | some embedding =>
      if embedding.length < 384 then
        embedding ++ List.replicate (384 - embedding.length) 0
      else if embedding.length > 384 then embedding.take 384
      else embedding

/-! ### The lazily fitted vocabulary (session state of `get_embedding`)

The TF-IDF vocabulary is abstracted by the text of the document it was
fitted on (`none` = `vectorizer` has no `vocabulary_` attribute yet).
`fitOk text` abstracts whether `fit_transform([text])` succeeds (sklearn
raises, e.g., on texts producing an empty vocabulary; the `except`
branch swallows the error and leaves the vocabulary unset). -/

/-- One `get_embedding` call's effect on the vocabulary state:
empty text returns before touching the vectorizer; otherwise the first
call with no fitted vocabulary fits it (when fitting succeeds), and a
fitted vocabulary is reused unchanged (`transform` only). -/
def encode_step (fitOk : String → Bool) (vocab : Option String) (text : String) :
    Option String :=
  if text = "" then vocab
  else
    match vocab with
    | none => if fitOk text then some text else none
    | some v => some v

/-- Vocabulary state after a whole session encodes `texts` in order,
starting from a fresh vectorizer. -/
def encode_session (fitOk : String → Bool) (texts : List String) : Option String :=
  texts.foldl (encode_step fitOk) none

/-! ## `src/ranker.py` — `rank_resumes` -/

/-- A processed document as `rank_resumes` consumes it: the dict built by
the parsing stage, with its `entities` sub-dict flattened. -/
structure Doc where
  filename : String
  text : String
  processed_text : String
  skills : List String
  education : List String
  experience : List String
  embedding : List ℚ
deriving DecidableEq, Repr

/-- One entry of the list `rank_resumes` returns. -/
structure RankedResume where
  filename : String
  text : String
  processed_text : String
  skills : List String
  education : List String
  experience : List String
  embedding : List ℚ
  match_score : ℚ
  skills_score : ℚ
  education_score : ℚ
  experience_score : ℚ
  matching_skills : List String
  missing_skills : List String
deriving DecidableEq, Repr

/-- The body of the `for resume in parsed_resumes` loop of `rank_resumes`:
scores one resume against the job description and assembles its entry. -/
def score_resume (sqrt : ℚ → ℚ) (job_description resume : Doc) : RankedResume :=
  let similarity_score := calculate_similarity sqrt job_description.embedding resume.embedding
  let skills_score := calculate_skills_match job_description.skills resume.skills
  let education_score := calculate_education_match job_description.education resume.education
  let experience_score := calculate_experience_match job_description.experience resume.experience
  let overall_score :=
    (similarity_score * 0.4 + skills_score * 0.3 +
      education_score * 0.15 + experience_score * 0.15) * 100
  { filename := resume.filename
    text := resume.text
    processed_text := resume.processed_text
    skills := resume.skills
    education := resume.education
    experience := resume.experience
    embedding := resume.embedding
    match_score := overall_score
    skills_score := skills_score * 100
    education_score := education_score * 100
    experience_score := experience_score * 100
    matching_skills := resume.skills.filter (fun skill =>
      job_description.skills.any (fun job_skill =>
        pyIn (lowerStr job_skill) (lowerStr skill) || pyIn (lowerStr skill) (lowerStr job_skill)))
    missing_skills := job_description.skills.filter (fun skill =>
      ¬ resume.skills.any (fun resume_skill =>
        pyIn (lowerStr skill) (lowerStr resume_skill) || pyIn (lowerStr resume_skill) (lowerStr skill))) }

/-- Insert into a descending-sorted list, after all entries with a
greater-or-equal score.  Together with `sortByScoreDesc` this is the
standard stable insertion sort, modelling Python's
`list.sort(key=..., reverse=True)`, which is documented to be stable
(equal keys keep their original relative order, also with `reverse=True`). -/
def insertDesc (x : RankedResume) : List RankedResume → List RankedResume
  | [] => [x]
  | y :: ys =>
    if x.match_score < y.match_score then y :: insertDesc x ys else x :: y :: ys

/-- Stable sort, descending by `match_score`. -/
def sortByScoreDesc : List RankedResume → List RankedResume
  | [] => []
  | x :: xs => insertDesc x (sortByScoreDesc xs)

/-- `rank_resumes` (src/ranker.py).  `job_description = none` models a
falsy (absent/empty) job description dict. -/
def rank_resumes (sqrt : ℚ → ℚ) (job_description : Option Doc) (parsed_resumes : List Doc) :
    List RankedResume :=
  match job_description with
  | none => []
  | some job =>
    if parsed_resumes = [] then []
    else sortByScoreDesc (parsed_resumes.map (score_resume sqrt job))

/-! ## `src/text_processor.py` — `preprocess_text`

The five regex passes of `preprocess_text` are embedded as executable
scanners over character lists with Python `re.sub` semantics: repeated
leftmost matching, non-overlapping, the scan resuming right after each
removed match.
-/

/-- Python `\w` (ASCII range, the alphabet of the pipeline's text). -/
def isWordChar (c : Char) : Bool :=
  ('a' ≤ c && c ≤ 'z') || ('A' ≤ c && c ≤ 'Z') || isDigitC c || c = '_'

/-- Generic `re.sub(pattern, '', ·)`: `m s = some k` means the pattern
matches a prefix of `s` of length `k + 1` (matches are never empty for
the patterns modelled here); the matched prefix is deleted and scanning
resumes after it, otherwise the scan advances one character.  The fuel
argument (at least the length of the list, see `subScan`) only forces
structural recursion; each step consumes at least one character. -/
def subScanAux (m : List Char → Option ℕ) : ℕ → List Char → List Char
  | 0, _ => []
  | _ + 1, [] => []
  | fuel + 1, c :: cs =>
    match m (c :: cs) with
    | some k => subScanAux m fuel (cs.drop k)
    | none => c :: subScanAux m fuel cs

/-- Generic `re.sub(pattern, '', ·)` over a whole character list. -/
def subScan (m : List Char → Option ℕ) (l : List Char) : List Char :=
  subScanAux m l.length l

/-- Length of the maximal `\S` run at the front. -/
def nonspaceRun (l : List Char) : ℕ := (l.takeWhile (fun c => !(isSpaceC c))).length

/-- Matcher for `http\S+|www\S+|https\S+` at the current position
(the `https\S+` alternative is subsumed by `http\S+`, which the regex
engine tries first).  `\S+` is greedy and nothing follows it, so it
always takes the whole nonspace run. -/
def urlMatch (s : List Char) : Option ℕ :=
  if prefixL "http".toList s && 1 ≤ nonspaceRun (s.drop 4) then
    some (3 + nonspaceRun (s.drop 4))
  else if prefixL "www".toList s && 1 ≤ nonspaceRun (s.drop 3) then
    some (2 + nonspaceRun (s.drop 3))
  else none

/-- `re.sub(r'\S*@\S*\s?', '', ·)`.  A match starting inside a nonspace
run forces both `\S*` groups to stay inside that run with a literal `@`
between them, so the leftmost match is exactly the first maximal
nonspace run containing an `@`, extended by one following whitespace
character (`\s?`); runs without `@` admit no match at any of their
positions. -/
def subEmailsAux : ℕ → List Char → List Char
  | 0, _ => []
  | _ + 1, [] => []
  | fuel + 1, c :: cs =>
    if isSpaceC c then c :: subEmailsAux fuel cs
    else
      let run := (c :: cs).takeWhile (fun x => !(isSpaceC x))
      let rest := cs.dropWhile (fun x => !(isSpaceC x))
      if run.contains '@' then subEmailsAux fuel (rest.drop 1)
      else run ++ subEmailsAux fuel rest

/-- `re.sub(r'\S*@\S*\s?', '', ·)` over a whole character list. -/
def subEmails (l : List Char) : List Char := subEmailsAux l.length l

/-- The `[-.\s]` separator class of the phone pattern. -/
def isSepC (c : Char) : Bool := c = '-' || c = '.' || isSpaceC c

/-- Consume exactly `n` digits. -/
def exactDigits : ℕ → List Char → Option (List Char)
  | 0, l => some l
  | _ + 1, [] => none
  | n + 1, c :: cs => if isDigitC c then exactDigits n cs else none

/-- Matcher for `\(?\d{3}\)?[-.\s]?\d{3}[-.\s]?\d{4}` at the current
position.  Every optional piece can be committed greedily without
backtracking: declining `\(?` or `\)?` or a `[-.\s]?` that is present
leaves the scanner on a `(`/`)`/separator character, where the following
`\d` must fail anyway. -/
def phoneMatch (s : List Char) : Option ℕ :=
  let s1 := match s with
    | '(' :: r => r
    | r => r
  match exactDigits 3 s1 with
  | none => none
  | some s2 =>
    let s3 := match s2 with
      | ')' :: r => r
      | r => r
    let s4 := match s3 with
      | c :: r => if isSepC c then r else c :: r
      | [] => []
    match exactDigits 3 s4 with
    | none => none
    | some s5 =>
      let s6 := match s5 with
        | c :: r => if isSepC c then r else c :: r
        | [] => []
      match exactDigits 4 s6 with
      | none => none
      | some s7 => some (s.length - s7.length - 1)

/-- `re.sub(r'[^\w\s]', ' ', ·)`. -/
def punctToSpace (l : List Char) : List Char :=
  l.map (fun c => if isWordChar c || isSpaceC c then c else ' ')

def collapseSpacesAux : ℕ → List Char → List Char
  | 0, _ => []
  | _ + 1, [] => []
  | fuel + 1, c :: cs =>
    if isSpaceC c then ' ' :: collapseSpacesAux fuel (cs.dropWhile isSpaceC)
    else c :: collapseSpacesAux fuel cs

/-- `re.sub(r'\s+', ' ', ·)`. -/
def collapseSpaces (l : List Char) : List Char := collapseSpacesAux l.length l

/-- Python `str.strip()`. -/
def stripSpaces (l : List Char) : List Char :=
  ((l.dropWhile isSpaceC).reverse.dropWhile isSpaceC).reverse

/-- Tokenization into maximal `\w+` runs.  This is the deterministic
`RegexpTokenizer(r'\w+')` fallback of the source; on the cleaned text
(only word characters and single spaces remain at this point) NLTK's
`word_tokenize` produces the same split for the inputs considered here. -/
def tokenizeWAux : ℕ → List Char → List (List Char)
  | 0, _ => []
  | _ + 1, [] => []
  | fuel + 1, c :: cs =>
    if isWordChar c then
      (c :: cs).takeWhile isWordChar :: tokenizeWAux fuel (cs.dropWhile isWordChar)
    else tokenizeWAux fuel cs

/-- Tokenization of a whole character list into its `\w+` runs. -/
def tokenizeW (l : List Char) : List (List Char) := tokenizeWAux l.length l

/-- Modelled from the spec: the NLTK English stop-word list
(`stopwords.words('english')`), data loaded from the NLTK corpus at
module import and not part of the repository sources.  Contraction
entries containing an apostrophe are omitted: tokens reaching the filter
are `\w+` runs and can never contain an apostrophe, so those entries can
never be hit. -/
def STOP_WORDS : List String :=
  ["i", "me", "my", "myself", "we", "our", "ours", "ourselves",
   "you", "your", "yours", "yourself", "yourselves",
   "he", "him", "his", "himself", "she", "her", "hers", "herself",
   "it", "its", "itself", "they", "them", "their", "theirs", "themselves",
   "what", "which", "who", "whom", "this", "that", "these", "those",
   "am", "is", "are", "was", "were", "be", "been", "being",
   "have", "has", "had", "having", "do", "does", "did", "doing",
   "a", "an", "the", "and", "but", "if", "or", "because", "as",
   "until", "while", "of", "at", "by", "for", "with", "about",
   "against", "between", "into", "through", "during", "before",
   "after", "above", "below", "to", "from", "up", "down", "in",
   "out", "on", "off", "over", "under", "again", "further", "then",
   "once", "here", "there", "when", "where", "why", "how", "all",
   "any", "both", "each", "few", "more", "most", "other", "some",
   "such", "no", "nor", "not", "only", "own", "same", "so", "than",
   "too", "very", "s", "t", "can", "will", "just", "don", "should",
   "now", "d", "ll", "m", "o", "re", "ve", "y", "ain", "aren",
   "couldn", "didn", "doesn", "hadn", "hasn", "haven", "isn", "ma",
   "mightn", "mustn", "needn", "shan", "shouldn", "wasn", "weren",
   "won", "wouldn"]

/-- `token in STOP_WORDS` on a `\w+` token. -/
def isStopWord (tok : List Char) : Bool := STOP_WORDS.any (fun w => w.toList = tok)

/-- Python `' '.join(tokens)`. -/
def joinTokens : List (List Char) → List Char
  | [] => []
  | [tok] => tok
  | tok :: t2 :: rest => tok ++ ' ' :: joinTokens (t2 :: rest)

/-- Modelled from the spec: the WordNet lemmatizer
(`WordNetLemmatizer().lemmatize`, NLTK data not part of the repository
sources; "lemmatize each surviving token to its base form").  WordNet
returns any token outside its lexicon — in particular every digit string
— unchanged; the lemmatizer is modelled as the identity map, which is
exact on all tokens arising in the concrete inputs below. -/
def LEMMATIZER : List Char → List Char := fun token => token

/-- `preprocess_text` (src/text_processor.py): lower-case, strip
URLs/emails/phone numbers, replace punctuation by spaces, collapse
whitespace, tokenize, drop stop words and length-1 tokens, lemmatize,
re-join with single spaces. -/
def preprocess_text (text : String) : String :=
  let lowered := text.toList.map Char.toLower
  let noUrls := subScan urlMatch lowered
  let noEmails := subEmails noUrls
  let noPhones := subScan phoneMatch noEmails
  let noPunct := punctToSpace noPhones
  let cleaned := stripSpaces (collapseSpaces noPunct)
  let tokens := tokenizeW cleaned
  let filtered_tokens := (tokens.filter (fun tok =>
    !(isStopWord tok) && tok.length > 1)).map LEMMATIZER
  String.mk (joinTokens filtered_tokens)

/-- Does any position of the string still admit a match of the given
pattern?  (Used to state when the URL/phone deletion passes act trivially.) -/
def hasMatch (m : List Char → Option ℕ) : List Char → Bool
  | [] => false
  | c :: cs => (m (c :: cs)).isSome || hasMatch m cs

/-- No URL pattern and no phone pattern (the two deletion passes that can
fire again on already-normalized text) match anywhere in `s`. -/
def noResidualPattern (s : String) : Bool :=
  !(hasMatch urlMatch s.toList) && !(hasMatch phoneMatch s.toList)

/-! ## Claim-text formulations (for refinement comparisons) -/

/-- Closed form of `eduPoints`: when some resume phrase substring-matches
the job phrase, the scan stops at the first such phrase, having collected
half a point for every earlier keyword-sharing phrase; otherwise every
keyword-sharing resume phrase contributes half a point. -/
def eduPointsSpec (job_edu : String) (resume_edu_lower : List String) : ℚ :=
  if resume_edu_lower.any (fun r => pyIn job_edu r || pyIn r job_edu) then
    1 + (((resume_edu_lower.takeWhile (fun r => !(pyIn job_edu r || pyIn r job_edu))).filter
        (fun r => education_keywords.any (fun k => pyIn k job_edu && pyIn k r))).length : ℚ) * (1/2)
  else ((resume_edu_lower.filter
      (fun r => education_keywords.any (fun k => pyIn k job_edu && pyIn k r))).length : ℚ) * (1/2)

/-- The education score exactly as claim C3 words it: every job-education
phrase contributes 1 point when some resume phrase bidirectionally
substring-matches it, else 0.5 points when some resume phrase shares a
degree-level keyword with it (at most one point-award per job phrase). -/
def education_match_claimed (job_education resume_education : List String) : ℚ :=
  if job_education = [] then 1
  else if resume_education = [] then 0
  else
    let job_edu_lower := job_education.map lowerStr
    let resume_edu_lower := resume_education.map lowerStr
    let points := (job_edu_lower.map (fun job_edu =>
      if resume_edu_lower.any (fun r => pyIn job_edu r || pyIn r job_edu) then (1 : ℚ)
      else if resume_edu_lower.any (fun r =>
          education_keywords.any (fun k => pyIn k job_edu && pyIn k r)) then 1/2
      else 0)).sum
    min 1 (points / (job_education.length : ℚ))

/-! ## Sample documents (used by the witness corollaries) -/

/-- A sample processed job description. -/
def sampleJob : Doc :=
  { filename := "job.txt"
    text := "Looking for a Python developer"
    processed_text := "looking python developer"
    skills := ["python", "sql"]
    education := ["bachelor degree"]
    experience := ["5 years of experience"]
    embedding := [1, 0] }

/-- A sample processed resume. -/
def sampleResume : Doc :=
  { filename := "resume.pdf"
    text := "Senior Python Developer"
    processed_text := "senior python developer"
    skills := ["python programming"]
    education := ["bachelor of science"]
    experience := ["3 years of experience"]
    embedding := [1, 0] }

/-! # Theorems

## General lemmas about the scorers -/

theorem eduPoints_nonneg (job_edu : String) (rl : List String) : 0 ≤ eduPoints job_edu rl := by
  induction rl with
  | nil => simp [eduPoints]
  | cons r rs ih =>
    rw [eduPoints]
    split
    · norm_num
    · split
      · positivity
      · exact ih

theorem calculate_skills_match_bounds (job_skills resume_skills : List String) :
    0 ≤ calculate_skills_match job_skills resume_skills ∧
      calculate_skills_match job_skills resume_skills ≤ 1 := by
  rw [calculate_skills_match]
  split
  · norm_num
  · split
    · norm_num
    · rename_i hj _
      have hlen : (0 : ℚ) < (job_skills.length : ℚ) := by
        exact_mod_cast List.length_pos.mpr hj
      refine ⟨div_nonneg (by positivity) hlen.le, ?_⟩
      rw [div_le_one hlen]
      calc ((List.filter _ (job_skills.map lowerStr)).length : ℚ)
          ≤ ((job_skills.map lowerStr).length : ℚ) := by
            exact_mod_cast List.length_filter_le _ _
        _ = (job_skills.length : ℚ) := by rw [List.length_map]

theorem calculate_education_match_bounds (job_education resume_education : List String) :
    0 ≤ calculate_education_match job_education resume_education ∧
      calculate_education_match job_education resume_education ≤ 1 := by
  rw [calculate_education_match]
  split
  · norm_num
  · split
    · norm_num
    · rename_i hj _
      have hlen : (0 : ℚ) < (job_education.length : ℚ) := by
        exact_mod_cast List.length_pos.mpr hj
      refine ⟨le_min (by norm_num) ?_, min_le_left _ _⟩
      apply div_nonneg _ hlen.le
      apply List.sum_nonneg
      intro x hx
      obtain ⟨je, _, rfl⟩ := List.mem_map.mp hx
      exact eduPoints_nonneg _ _

theorem calculate_experience_match_bounds (job_experience resume_experience : List String) :
    0 ≤ calculate_experience_match job_experience resume_experience ∧
      calculate_experience_match job_experience resume_experience ≤ 1 := by
  rw [calculate_experience_match]
  split
  · norm_num
  · split
    · norm_num
    · rename_i hj _
      have hlen : (0 : ℚ) < (job_experience.length : ℚ) := by
        exact_mod_cast List.length_pos.mpr hj
      dsimp only
      split
      · split
        · norm_num
        · rename_i hcmp
          push_neg at hcmp
          have hpos : (0 : ℚ) < ((listMax ((List.map (fun e => findYears e.toList)
              (List.map lowerStr job_experience)).flatten)) : ℚ) := by
            exact_mod_cast Nat.pos_of_ne_zero (fun h => by omega)
          refine ⟨div_nonneg (by positivity) hpos.le, ?_⟩
          apply le_of_lt
          rw [div_lt_one hpos]
          exact_mod_cast hcmp
      · refine ⟨le_min (by norm_num) (div_nonneg (by positivity) hlen.le), min_le_left _ _⟩

theorem calculate_similarity_bounds (sqrt : ℚ → ℚ) (a b : List ℚ) :
    0 ≤ calculate_similarity sqrt a b ∧ calculate_similarity sqrt a b ≤ 1 := by
  rw [calculate_similarity]
  split
  · norm_num
  · exact ⟨le_max_left _ _, max_le (by norm_num) (min_le_left _ _)⟩

/-- The overall score assembled by `score_resume` is a convex combination
of four sub-scores in `[0,1]`, scaled to a percentage. -/
theorem score_resume_match_score_bounds (sqrt : ℚ → ℚ) (job resume : Doc) :
    0 ≤ (score_resume sqrt job resume).match_score ∧
      (score_resume sqrt job resume).match_score ≤ 100 := by
  obtain ⟨h1, h1'⟩ := calculate_similarity_bounds sqrt job.embedding resume.embedding
  obtain ⟨h2, h2'⟩ := calculate_skills_match_bounds job.skills resume.skills
  obtain ⟨h3, h3'⟩ := calculate_education_match_bounds job.education resume.education
  obtain ⟨h4, h4'⟩ := calculate_experience_match_bounds job.experience resume.experience
  rw [score_resume]
  constructor
  · nlinarith
  · nlinarith

/-! ## The stable descending sort of `rank_resumes` -/

theorem insertDesc_perm (x : RankedResume) (l : List RankedResume) :
    (insertDesc x l).Perm (x :: l) := by
  induction l with
  | nil => exact List.Perm.refl _
  | cons y ys ih =>
    rw [insertDesc]
    split
    · exact (ih.cons y).trans (List.Perm.swap x y ys)
    · exact List.Perm.refl _

theorem sortByScoreDesc_perm (l : List RankedResume) : (sortByScoreDesc l).Perm l := by
  induction l with
  | nil => exact List.Perm.refl _
  | cons x xs ih =>
    rw [sortByScoreDesc]
    exact (insertDesc_perm x (sortByScoreDesc xs)).trans (ih.cons x)

theorem insertDesc_pairwise (x : RankedResume) (l : List RankedResume)
    (h : l.Pairwise (fun a b => b.match_score ≤ a.match_score)) :
    (insertDesc x l).Pairwise (fun a b => b.match_score ≤ a.match_score) := by
  induction l with
  | nil => simp [insertDesc]
  | cons y ys ih =>
    rw [insertDesc]
    rw [List.pairwise_cons] at h
    split
    · rename_i hlt
      rw [List.pairwise_cons]
      refine ⟨?_, ih h.2⟩
      intro z hz
      have hz' := (insertDesc_perm x ys).mem_iff.mp hz
      rcases List.mem_cons.mp hz' with rfl | hz''
      · exact hlt.le
      · exact h.1 z hz''
    · rename_i hge
      push_neg at hge
      rw [List.pairwise_cons]
      refine ⟨?_, List.pairwise_cons.mpr h⟩
      intro z hz
      rcases List.mem_cons.mp hz with rfl | hz'
      · exact hge
      · exact (h.1 z hz').trans hge

theorem sortByScoreDesc_pairwise (l : List RankedResume) :
    (sortByScoreDesc l).Pairwise (fun a b => b.match_score ≤ a.match_score) := by
  induction l with
  | nil => simp [sortByScoreDesc]
  | cons x xs ih => exact insertDesc_pairwise x _ ih

/-- Stability of the insertion step: restricted to any fixed score value,
inserting preserves the sequence (the inserted element lands before every
equal-scored element only after strictly greater ones, which the filter
discards). -/
theorem filter_insertDesc (x : RankedResume) (l : List RankedResume) (c : ℚ) :
    (insertDesc x l).filter (fun r => r.match_score = c) =
      (if x.match_score = c then [x] else []) ++ l.filter (fun r => r.match_score = c) := by
  induction l with
  | nil =>
    rw [insertDesc]
    by_cases hx : x.match_score = c <;> simp [hx]
  | cons y ys ih =>
    rw [insertDesc]
    split
    · rename_i hlt
      by_cases hy : y.match_score = c
      · by_cases hx : x.match_score = c
        · rw [hx, ← hy] at hlt
          exact absurd hlt (lt_irrefl _)
        · simp [List.filter_cons, hy, ih, hx]
      · simp [List.filter_cons, hy, ih]
    · simp only [List.filter_cons]
      by_cases hx : x.match_score = c <;> simp [hx]

theorem filter_sortByScoreDesc (l : List RankedResume) (c : ℚ) :
    (sortByScoreDesc l).filter (fun r => r.match_score = c) =
      l.filter (fun r => r.match_score = c) := by
  induction l with
  | nil => rfl
  | cons x xs ih =>
    rw [sortByScoreDesc, filter_insertDesc, ih, List.filter_cons]
    by_cases hx : x.match_score = c <;> simp [hx]

/-! ## Claim C1 -/

/-- C1: every entry `rank_resumes` returns for some input resume carries
`overall_score = (similarity*0.4 + skills*0.3 + education*0.15 +
experience*0.15) * 100` computed from the four scorers, and the skills,
education and experience sub-scores are reported multiplied by 100.
(The similarity sub-score itself is not a field of the result dict.) -/
theorem c1_overall_score_formula (sqrt : ℚ → ℚ) (job : Doc) (resumes : List Doc)
    (entry : RankedResume) (hmem : entry ∈ rank_resumes sqrt (some job) resumes) :
    ∃ resume ∈ resumes,
      entry.match_score =
        (calculate_similarity sqrt job.embedding resume.embedding * 0.4 +
          calculate_skills_match job.skills resume.skills * 0.3 +
          calculate_education_match job.education resume.education * 0.15 +
          calculate_experience_match job.experience resume.experience * 0.15) * 100 ∧
      entry.skills_score = calculate_skills_match job.skills resume.skills * 100 ∧
      entry.education_score = calculate_education_match job.education resume.education * 100 ∧
      entry.experience_score = calculate_experience_match job.experience resume.experience * 100 := by
  rw [rank_resumes] at hmem
  by_cases hres : resumes = []
  · rw [if_pos hres] at hmem
    simp at hmem
  · rw [if_neg hres] at hmem
    obtain ⟨resume, hr, rfl⟩ :=
      List.mem_map.mp ((sortByScoreDesc_perm _).mem_iff.mp hmem)
    exact ⟨resume, hr, rfl, rfl, rfl, rfl⟩

/-- Witness for C1 at a concrete ranking run. -/
theorem c1_overall_score_formula_witness :
    ∃ resume ∈ [sampleResume],
      (score_resume (fun _ => 1) sampleJob sampleResume).match_score =
        (calculate_similarity (fun _ => 1) sampleJob.embedding resume.embedding * 0.4 +
          calculate_skills_match sampleJob.skills resume.skills * 0.3 +
          calculate_education_match sampleJob.education resume.education * 0.15 +
          calculate_experience_match sampleJob.experience resume.experience * 0.15) * 100 ∧
      (score_resume (fun _ => 1) sampleJob sampleResume).skills_score =
        calculate_skills_match sampleJob.skills resume.skills * 100 ∧
      (score_resume (fun _ => 1) sampleJob sampleResume).education_score =
        calculate_education_match sampleJob.education resume.education * 100 ∧
      (score_resume (fun _ => 1) sampleJob sampleResume).experience_score =
        calculate_experience_match sampleJob.experience resume.experience * 100 :=
  c1_overall_score_formula (fun _ => 1) sampleJob [sampleResume]
    (score_resume (fun _ => 1) sampleJob sampleResume)
    (by simp [rank_resumes, sortByScoreDesc, insertDesc])

/-! ## Claim C2 -/

/-- C2: `rank_resumes` returns `[]` for a missing job description or an
empty resume list; otherwise one entry per input resume, sorted descending
by overall score, every overall score within `[0, 100]`. -/
theorem c2_rank_contract (sqrt : ℚ → ℚ) (job : Doc) (resumes : List Doc) :
    rank_resumes sqrt none resumes = [] ∧
    rank_resumes sqrt (some job) [] = [] ∧
    (rank_resumes sqrt (some job) resumes).length = resumes.length ∧
    (rank_resumes sqrt (some job) resumes).Pairwise
      (fun a b => b.match_score ≤ a.match_score) ∧
    ∀ entry ∈ rank_resumes sqrt (some job) resumes,
      0 ≤ entry.match_score ∧ entry.match_score ≤ 100 := by
  refine ⟨rfl, rfl, ?_, ?_, ?_⟩
  · rw [rank_resumes]
    by_cases h : resumes = []
    · rw [if_pos h, h]
      rfl
    · rw [if_neg h, (sortByScoreDesc_perm _).length_eq, List.length_map]
  · rw [rank_resumes]
    by_cases h : resumes = []
    · rw [if_pos h]
      simp
    · rw [if_neg h]
      exact sortByScoreDesc_pairwise _
  · intro entry hmem
    rw [rank_resumes] at hmem
    by_cases h : resumes = []
    · rw [if_pos h] at hmem
      simp at hmem
    · rw [if_neg h] at hmem
      obtain ⟨r, _, rfl⟩ := List.mem_map.mp ((sortByScoreDesc_perm _).mem_iff.mp hmem)
      exact score_resume_match_score_bounds sqrt job r

/-- Witness for C2 at a concrete ranking run. -/
theorem c2_rank_contract_witness :
    0 ≤ (score_resume (fun _ => 1) sampleJob sampleResume).match_score ∧
      (score_resume (fun _ => 1) sampleJob sampleResume).match_score ≤ 100 :=
  (c2_rank_contract (fun _ => 1) sampleJob [sampleResume]).2.2.2.2
    (score_resume (fun _ => 1) sampleJob sampleResume)
    (by simp [rank_resumes, sortByScoreDesc, insertDesc])

/-! ## Claim C10 -/

/-- C10: the ranking sort is stable — restricted to any fixed overall
score, the output lists the tied entries exactly in input order (Python's
`list.sort` is stable, also with `reverse=True`). -/
theorem c10_rank_sort_stable (sqrt : ℚ → ℚ) (job : Doc) (resumes : List Doc) (c : ℚ) :
    (rank_resumes sqrt (some job) resumes).filter (fun r => r.match_score = c) =
      (resumes.map (score_resume sqrt job)).filter (fun r => r.match_score = c) := by
  rw [rank_resumes]
  by_cases h : resumes = []
  · rw [if_pos h, h]
    rfl
  · rw [if_neg h]
    exact filter_sortByScoreDesc _ _

/-! ## Claim C3 -/

/-- C3 is refuted: the inner `break` of `calculate_education_match` only
leaves the keyword loop, so one job phrase can collect half a point from
*several* keyword-sharing resume phrases.  Here "bachelor of arts" has no
substring match but shares "bachelor" with both resume phrases, so the
code scores `0.5 + 0.5 = 1.0` where the claimed per-phrase rule gives 0.5. -/
theorem c3_education_counterexample :
    calculate_education_match ["bachelor of arts"] ["bachelor qq", "bachelor zz"] ≠
      education_match_claimed ["bachelor of arts"] ["bachelor qq", "bachelor zz"] := by
  have hpts : eduPoints (lowerStr "bachelor of arts")
      [lowerStr "bachelor qq", lowerStr "bachelor zz"] = 1/2 + (1/2 + 0) := by
    rw [eduPoints, if_neg (by decide), if_pos (by decide),
      eduPoints, if_neg (by decide), if_pos (by decide), eduPoints]
  have h1 : calculate_education_match ["bachelor of arts"] ["bachelor qq", "bachelor zz"] = 1 := by
    rw [calculate_education_match, if_neg (by decide), if_neg (by decide)]
    dsimp only
    simp only [List.map_cons, List.map_nil, List.sum_cons, List.sum_nil, hpts,
      List.length_cons, List.length_nil]
    norm_num
  have h2 : education_match_claimed ["bachelor of arts"] ["bachelor qq", "bachelor zz"] = 1/2 := by
    rw [education_match_claimed, if_neg (by decide), if_neg (by decide)]
    dsimp only
    simp only [List.map_cons, List.map_nil, List.sum_cons, List.sum_nil,
      List.length_cons, List.length_nil]
    rw [if_neg (by decide), if_pos (by decide)]
    norm_num
  rw [h1, h2]
  norm_num

theorem eduPoints_eq_spec (job_edu : String) (rl : List String) :
    eduPoints job_edu rl = eduPointsSpec job_edu rl := by
  induction rl with
  | nil => simp [eduPoints, eduPointsSpec]
  | cons r rs ih =>
    simp only [eduPointsSpec] at ih ⊢
    rw [eduPoints]
    by_cases hsub : (pyIn job_edu r || pyIn r job_edu) = true
    · rw [if_pos hsub]
      have h1 : ((r :: rs).any fun x => pyIn job_edu x || pyIn x job_edu) = true := by
        simp [List.any_cons, hsub]
      rw [h1, if_pos rfl, List.takeWhile_cons_of_neg (by simp [hsub])]
      norm_num
    · have hsub' : (pyIn job_edu r || pyIn r job_edu) = false := by
        rw [Bool.eq_false_iff]
        exact hsub
      rw [if_neg hsub]
      by_cases hsh : (education_keywords.any fun k => pyIn k job_edu && pyIn k r) = true
      · rw [if_pos hsh, ih]
        by_cases hany : (rs.any fun x => pyIn job_edu x || pyIn x job_edu) = true
        · have h1 : ((r :: rs).any fun x => pyIn job_edu x || pyIn x job_edu) = true := by
            simp [List.any_cons, hany]
          rw [hany, if_pos rfl, h1, if_pos rfl,
            List.takeWhile_cons_of_pos (by simp [hsub']),
            List.filter_cons_of_pos (by simpa using hsh), List.length_cons]
          push_cast
          ring
        · have hany' : (rs.any fun x => pyIn job_edu x || pyIn x job_edu) = false := by
            rw [Bool.eq_false_iff]
            exact hany
          have h1 : ((r :: rs).any fun x => pyIn job_edu x || pyIn x job_edu) = false := by
            simp [List.any_cons, hsub', hany']
          rw [hany', if_neg (by simp), h1, if_neg (by simp),
            List.filter_cons_of_pos (by simpa using hsh), List.length_cons]
          push_cast
          ring
      · have hsh' : (education_keywords.any fun k => pyIn k job_edu && pyIn k r) = false := by
          rw [Bool.eq_false_iff]
          exact hsh
        rw [if_neg hsh, ih]
        by_cases hany : (rs.any fun x => pyIn job_edu x || pyIn x job_edu) = true
        · have h1 : ((r :: rs).any fun x => pyIn job_edu x || pyIn x job_edu) = true := by
            simp [List.any_cons, hany]
          rw [hany, if_pos rfl, h1, if_pos rfl,
            List.takeWhile_cons_of_pos (by simp [hsub']),
            List.filter_cons_of_neg (by simp [hsh'])]
        · have hany' : (rs.any fun x => pyIn job_edu x || pyIn x job_edu) = false := by
            rw [Bool.eq_false_iff]
            exact hany
          have h1 : ((r :: rs).any fun x => pyIn job_edu x || pyIn x job_edu) = false := by
            simp [List.any_cons, hsub', hany']
          rw [hany', if_neg (by simp), h1, if_neg (by simp),
            List.filter_cons_of_neg (by simp [hsh'])]

/-- C3 amended: the vacuous and zero cases are as claimed, but each job
phrase's contribution is the value of the in-order scan `eduPointsSpec`:
1 point for the first substring-matching resume phrase *plus* half a
point for every earlier keyword-sharing phrase, or, with no substring
match anywhere, half a point for *every* keyword-sharing resume phrase —
so a single job phrase can contribute more than 1 point before the final
clamp. -/
theorem c3_education_amended (job_education resume_education : List String) :
    calculate_education_match [] resume_education = 1 ∧
    (job_education ≠ [] → calculate_education_match job_education [] = 0) ∧
    (job_education ≠ [] → resume_education ≠ [] →
      calculate_education_match job_education resume_education =
        min 1 (((job_education.map lowerStr).map
            (fun job_edu => eduPointsSpec job_edu (resume_education.map lowerStr))).sum /
          (job_education.length : ℚ))) := by
  refine ⟨rfl, ?_, ?_⟩
  · intro hj
    rw [calculate_education_match, if_neg hj]
    rfl
  · intro hj hr
    rw [calculate_education_match, if_neg hj, if_neg hr]
    dsimp only
    have hmap : List.map (fun job_edu => eduPoints job_edu (List.map lowerStr resume_education))
        (List.map lowerStr job_education) =
      List.map (fun job_edu => eduPointsSpec job_edu (List.map lowerStr resume_education))
        (List.map lowerStr job_education) :=
      List.map_congr_left (fun je _ => eduPoints_eq_spec je _)
    rw [hmap]

/-- Witness for the amended C3 at the counterexample input. -/
theorem c3_education_amended_witness :
    calculate_education_match ["bachelor of arts"] ["bachelor qq", "bachelor zz"] =
      min 1 ((((["bachelor of arts"] : List String).map lowerStr).map
          (fun job_edu => eduPointsSpec job_edu
            ((["bachelor qq", "bachelor zz"] : List String).map lowerStr))).sum /
        (((["bachelor of arts"] : List String).length : ℕ) : ℚ)) :=
  (c3_education_amended ["bachelor of arts"] ["bachelor qq", "bachelor zz"]).2.2
    (by decide) (by decide)

/-! ## Claim C4 -/

/-- C4: when explicit year counts appear on both sides, the experience
score compares the two maxima — full score when the resume maximum
reaches the job maximum, else their ratio. -/
theorem c4_experience_years_comparison (job_experience resume_experience : List String)
    (hj : extractedYears job_experience ≠ [])
    (hr : extractedYears resume_experience ≠ []) :
    calculate_experience_match job_experience resume_experience =
      if listMax (extractedYears resume_experience) ≥ listMax (extractedYears job_experience)
      then 1
      else (listMax (extractedYears resume_experience) : ℚ) /
        (listMax (extractedYears job_experience) : ℚ) := by
  have hj0 : job_experience ≠ [] := by
    rintro rfl
    exact hj rfl
  have hr0 : resume_experience ≠ [] := by
    rintro rfl
    exact hr rfl
  rw [calculate_experience_match, if_neg hj0, if_neg hr0]
  dsimp only
  rw [if_pos ⟨hj, hr⟩]
  rfl

/-- Witness for C4: the spec's own example, 5 required vs 3 offered years. -/
theorem c4_experience_years_comparison_witness :
    calculate_experience_match ["5 years of experience"] ["3 years of experience"] = 0.6 := by
  have h := c4_experience_years_comparison ["5 years of experience"]
    ["3 years of experience"] (by decide) (by decide)
  rw [h, show listMax (extractedYears ["3 years of experience"]) = 3 from by decide,
    show listMax (extractedYears ["5 years of experience"]) = 5 from by decide]
  norm_num

/-! ## Claim C5 -/

/-- C5: the skills score is 0 when either side lists no skills, and
otherwise the fraction of job skills with a case-insensitive bidirectional
substring match among the resume skills, a value in `[0, 1]`. -/
theorem c5_skills_fraction (job_skills resume_skills : List String) :
    calculate_skills_match [] resume_skills = 0 ∧
    calculate_skills_match job_skills [] = 0 ∧
    (job_skills ≠ [] → resume_skills ≠ [] →
      calculate_skills_match job_skills resume_skills =
        ((job_skills.filter (fun j => resume_skills.any (fun r =>
            pyIn (lowerStr j) (lowerStr r) || pyIn (lowerStr r) (lowerStr j)))).length : ℚ) /
          (job_skills.length : ℚ)) ∧
    0 ≤ calculate_skills_match job_skills resume_skills ∧
    calculate_skills_match job_skills resume_skills ≤ 1 := by
  obtain ⟨hb1, hb2⟩ := calculate_skills_match_bounds job_skills resume_skills
  refine ⟨rfl, ?_, ?_, hb1, hb2⟩
  · rw [calculate_skills_match]
    split
    · rfl
    · rfl
  · intro hj hr
    rw [calculate_skills_match, if_neg hj, if_neg hr]
    dsimp only
    congr 2
    rw [List.filter_map, List.length_map]
    congr 1
    apply List.filter_congr
    intro j _
    simp only [Function.comp_apply, List.any_map]
    rfl

/-- Witness for C5: the spec's own example — only "python" matches. -/
theorem c5_skills_fraction_witness :
    calculate_skills_match ["python", "sql"] ["python programming"] = 0.5 := by
  have h := (c5_skills_fraction ["python", "sql"] ["python programming"]).2.2.1
    (by decide) (by decide)
  rw [h, show (["python", "sql"].filter (fun j => ["python programming"].any (fun r =>
      pyIn (lowerStr j) (lowerStr r) || pyIn (lowerStr r) (lowerStr j)))).length = 1
    from by decide]
  norm_num

/-! ## Claim C6 -/

/-- C6: the similarity score always lies in `[0, 1]` — whatever values the
abstracted float square root produces — and is exactly 0 whenever either
vector is entirely zero (the zero test fires before any division). -/
theorem c6_similarity_safe (sqrt : ℚ → ℚ) (a b : List ℚ) :
    (0 ≤ calculate_similarity sqrt a b ∧ calculate_similarity sqrt a b ≤ 1) ∧
    ((∀ x ∈ a, x = 0) ∨ (∀ x ∈ b, x = 0) → calculate_similarity sqrt a b = 0) := by
  refine ⟨calculate_similarity_bounds sqrt a b, ?_⟩
  intro h
  have hz : (allZero a || allZero b) = true := by
    rcases h with h | h
    · have : allZero a = true := by
        simp only [allZero, List.all_eq_true, decide_eq_true_eq]
        exact h
      simp [this]
    · have : allZero b = true := by
        simp only [allZero, List.all_eq_true, decide_eq_true_eq]
        exact h
      simp [this]
  rw [calculate_similarity, if_pos hz]

/-- Witness for C6, including the all-zero/all-zero case. -/
theorem c6_similarity_safe_witness :
    calculate_similarity (fun _ => 1) [0, 0] [3, 4] = 0 ∧
    calculate_similarity (fun _ => 1) [0, 0] [0, 0] = 0 :=
  ⟨(c6_similarity_safe (fun _ => 1) [0, 0] [3, 4]).2 (Or.inl (by norm_num)),
   (c6_similarity_safe (fun _ => 1) [0, 0] [0, 0]).2 (Or.inr (by norm_num))⟩

/-! ## Claim C7 -/

/-- C7: `get_embedding` always returns a vector of exactly 384 entries;
empty text and any swallowed internal encoding error both yield the zero
vector of dimension 384. -/
theorem c7_get_embedding_safe (text : String) (raw : Option (List ℚ)) :
    (get_embedding text raw).length = 384 ∧
    (text = "" → get_embedding text raw = List.replicate 384 0) ∧
    (raw = none → get_embedding text raw = List.replicate 384 0) := by
  refine ⟨?_, ?_, ?_⟩
  · rw [get_embedding.eq_def]
    split
    · simp
    · cases raw with
      | none => simp
      | some e =>
        dsimp only
        split
        · rename_i hlt
          rw [List.length_append, List.length_replicate]
          omega
        · split
          · rw [List.length_take]
            rename_i hgt
            omega
          · rename_i h1 h2
            omega
  · intro h
    rw [get_embedding.eq_def, if_pos h]
  · rintro rfl
    rw [get_embedding.eq_def]
    split
    · rfl
    · rfl

/-- Witness for C7: empty text, and a swallowed error on nonempty text. -/
theorem c7_get_embedding_safe_witness :
    get_embedding "" (some [1, 2]) = List.replicate 384 0 ∧
    get_embedding "some resume text" none = List.replicate 384 0 :=
  ⟨(c7_get_embedding_safe "" (some [1, 2])).2.1 rfl,
   (c7_get_embedding_safe "some resume text" none).2.2 rfl⟩

/-! ## Claim C8 -/

/-- C8 is refuted as stated: an empty first document returns the zero
vector *before* touching the vectorizer, so after the first encode call
of the session `["", "x"]` the vocabulary is still unfitted, and the
vocabulary the session ends with was fitted on the second document, not
the first. -/
theorem c8_first_fit_counterexample :
    encode_step (fun _ => true) none "" = none ∧
    encode_session (fun _ => true) ["", "x"] = some "x" ∧ ("x" : String) ≠ "" := by
  exact ⟨rfl, rfl, by decide⟩

theorem encode_foldl_some (fitOk : String → Bool) (v : String) :
    ∀ ts : List String, ts.foldl (encode_step fitOk) (some v) = some v := by
  intro ts
  induction ts with
  | nil => rfl
  | cons t ts ih =>
    rw [List.foldl_cons]
    have hstep : encode_step fitOk (some v) t = some v := by
      rw [encode_step]
      split
      · rfl
      · rfl
    rw [hstep, ih]

/-- C8 amended: in any session, the vocabulary ends up fitted on the
*first document with nonempty text whose fit succeeds* (none of the
documents before it fit anything: empty texts return early and failed
fits leave the vocabulary unset), and once fitted it is never refitted —
so at most one fit per session, but not necessarily on the first encode
call. -/
theorem c8_vocabulary_amended (fitOk : String → Bool) (texts : List String) :
    encode_session fitOk texts =
      (texts.filter (fun t => decide (t ≠ "") && fitOk t)).head? ∧
    ∀ v : String, ∀ ts : List String,
      ts.foldl (encode_step fitOk) (some v) = some v := by
  refine ⟨?_, fun v ts => encode_foldl_some fitOk v ts⟩
  induction texts with
  | nil => rfl
  | cons t ts ih =>
    rw [encode_session, List.foldl_cons]
    by_cases ht : t = ""
    · subst ht
      rw [encode_step, if_pos rfl, List.filter_cons, if_neg (by simp)]
      exact ih
    · have hstep : encode_step fitOk none t = if fitOk t then some t else none := by
        rw [encode_step, if_neg ht]
      rw [hstep]
      by_cases hfit : fitOk t = true
      · rw [hfit, if_pos rfl, encode_foldl_some, List.filter_cons,
          if_pos (by simp [ht, hfit])]
        rfl
      · rw [Bool.not_eq_true] at hfit
        rw [hfit, if_neg (by simp), List.filter_cons, if_neg (by simp [hfit])]
        exact ih

/-! ## Claim C9 — normalization idempotency analysis

### Character-class facts -/

theorem char_toNat_ofNat (n : ℕ) (h : Nat.isValidChar n) : (Char.ofNat n).toNat = n := by
  rw [Char.ofNat, dif_pos h]
  rfl

/-- ASCII lower-casing is idempotent. -/
theorem toLower_toLower (c : Char) : Char.toLower (Char.toLower c) = Char.toLower c := by
  unfold Char.toLower
  dsimp only
  split
  · rename_i h
    have hv : Nat.isValidChar (c.toNat + 32) := Or.inl (by omega)
    rw [char_toNat_ofNat _ hv, if_neg (by omega)]
  · rfl

theorem isWordChar_of_isSpaceC {c : Char} (h : isSpaceC c = true) : isWordChar c = false := by
  rw [isSpaceC] at h
  simp only [Bool.or_eq_true, decide_eq_true_eq] at h
  rcases h with ((((h | h) | h) | h) | h) | h <;> subst h <;> decide

theorem isSpaceC_of_isWordChar {c : Char} (h : isWordChar c = true) : isSpaceC c = false := by
  by_cases hs : isSpaceC c = true
  · rw [isWordChar_of_isSpaceC hs] at h
    cases h
  · exact Bool.eq_false_iff.mpr hs

/-! ### Fuel irrelevance

Each scanner consumes at least one character per step, so any fuel of at
least the length of the remaining list produces the same result; the
wrapper (fuel = full length) therefore satisfies the natural step
equations, proved below. -/

theorem subScanAux_fuel (m : List Char → Option ℕ) :
    ∀ n (l : List Char), l.length ≤ n → ∀ f1 f2, l.length ≤ f1 → l.length ≤ f2 →
      subScanAux m f1 l = subScanAux m f2 l := by
  intro n
  induction n with
  | zero =>
    intro l hl f1 f2 _ _
    have hnil : l = [] := List.length_eq_zero.mp (Nat.le_zero.mp hl)
    subst hnil
    cases f1 <;> cases f2 <;> rfl
  | succ n ih =>
    intro l hl f1 f2 h1 h2
    cases l with
    | nil => cases f1 <;> cases f2 <;> rfl
    | cons c cs =>
      simp only [List.length_cons] at hl h1 h2
      cases f1 with
      | zero => omega
      | succ g1 =>
        cases f2 with
        | zero => omega
        | succ g2 =>
          cases hm : m (c :: cs) with
          | some k =>
            simp only [subScanAux, hm]
            have hdl : (cs.drop k).length ≤ cs.length := by
              rw [List.length_drop]
              omega
            exact ih _ (by omega) _ _ (by omega) (by omega)
          | none =>
            simp only [subScanAux, hm]
            rw [ih cs (by omega) g1 g2 (by omega) (by omega)]

theorem subScan_eq_aux (m : List Char → Option ℕ) (fuel : ℕ) (l : List Char)
    (h : l.length ≤ fuel) : subScanAux m fuel l = subScan m l :=
  subScanAux_fuel m l.length l (le_refl _) fuel l.length h (le_refl _)

theorem subScan_cons_match {m : List Char → Option ℕ} {c : Char} {cs : List Char} {k : ℕ}
    (hm : m (c :: cs) = some k) :
    subScan m (c :: cs) = subScan m (cs.drop k) := by
  rw [subScan]
  simp only [List.length_cons, subScanAux, hm]
  exact subScan_eq_aux m _ _ (by rw [List.length_drop]; omega)

theorem subScan_cons_nomatch {m : List Char → Option ℕ} {c : Char} {cs : List Char}
    (hm : m (c :: cs) = none) :
    subScan m (c :: cs) = c :: subScan m cs := by
  rw [subScan]
  simp only [List.length_cons, subScanAux, hm]
  rw [subScan_eq_aux m _ _ (le_refl _)]

theorem subEmailsAux_fuel :
    ∀ n (l : List Char), l.length ≤ n → ∀ f1 f2, l.length ≤ f1 → l.length ≤ f2 →
      subEmailsAux f1 l = subEmailsAux f2 l := by
  intro n
  induction n with
  | zero =>
    intro l hl f1 f2 _ _
    have hnil : l = [] := List.length_eq_zero.mp (Nat.le_zero.mp hl)
    subst hnil
    cases f1 <;> cases f2 <;> rfl
  | succ n ih =>
    intro l hl f1 f2 h1 h2
    cases l with
    | nil => cases f1 <;> cases f2 <;> rfl
    | cons c cs =>
      simp only [List.length_cons] at hl h1 h2
      cases f1 with
      | zero => omega
      | succ g1 =>
        cases f2 with
        | zero => omega
        | succ g2 =>
          by_cases hsp : isSpaceC c = true
          · simp only [subEmailsAux, hsp, if_true]
            rw [ih cs (by omega) g1 g2 (by omega) (by omega)]
          · simp only [subEmailsAux, hsp, Bool.false_eq_true, if_false]
            have hrest : (cs.dropWhile (fun x => !(isSpaceC x))).length ≤ cs.length :=
              (List.dropWhile_sublist _).length_le
            by_cases hat : ((c :: cs).takeWhile (fun x => !(isSpaceC x))).contains '@' = true
            · simp only [hat, if_true]
              have : ((cs.dropWhile (fun x => !(isSpaceC x))).drop 1).length ≤ cs.length := by
                rw [List.length_drop]
                omega
              exact ih _ (by omega) _ _ (by omega) (by omega)
            · simp only [hat, Bool.false_eq_true, if_false]
              rw [ih _ (by omega) g1 g2 (by omega) (by omega)]

theorem subEmails_eq_aux (fuel : ℕ) (l : List Char) (h : l.length ≤ fuel) :
    subEmailsAux fuel l = subEmails l :=
  subEmailsAux_fuel l.length l (le_refl _) fuel l.length h (le_refl _)

theorem subEmails_cons_space {c : Char} {cs : List Char} (h : isSpaceC c = true) :
    subEmails (c :: cs) = c :: subEmails cs := by
  rw [subEmails]
  simp only [List.length_cons, subEmailsAux, h, if_true]
  rw [subEmails_eq_aux _ _ (le_refl _)]

theorem subEmails_cons_at {c : Char} {cs : List Char} (h : ¬isSpaceC c = true)
    (hat : ((c :: cs).takeWhile (fun x => !(isSpaceC x))).contains '@' = true) :
    subEmails (c :: cs) = subEmails ((cs.dropWhile (fun x => !(isSpaceC x))).drop 1) := by
  rw [subEmails]
  simp only [List.length_cons, subEmailsAux, h, if_false, hat, if_true]
  have h1 : (cs.dropWhile (fun x => !(isSpaceC x))).length ≤ cs.length :=
    (List.dropWhile_sublist _).length_le
  exact subEmails_eq_aux _ _ (by rw [List.length_drop]; omega)

theorem subEmails_cons_noat {c : Char} {cs : List Char} (h : ¬isSpaceC c = true)
    (hat : ¬((c :: cs).takeWhile (fun x => !(isSpaceC x))).contains '@' = true) :
    subEmails (c :: cs) =
      (c :: cs).takeWhile (fun x => !(isSpaceC x)) ++
        subEmails (cs.dropWhile (fun x => !(isSpaceC x))) := by
  rw [subEmails]
  simp only [List.length_cons, subEmailsAux, h, hat, Bool.false_eq_true, if_false]
  have h1 : (cs.dropWhile (fun x => !(isSpaceC x))).length ≤ cs.length :=
    (List.dropWhile_sublist _).length_le
  rw [subEmails_eq_aux _ _ (by omega)]

theorem collapseSpacesAux_fuel :
    ∀ n (l : List Char), l.length ≤ n → ∀ f1 f2, l.length ≤ f1 → l.length ≤ f2 →
      collapseSpacesAux f1 l = collapseSpacesAux f2 l := by
  intro n
  induction n with
  | zero =>
    intro l hl f1 f2 _ _
    have hnil : l = [] := List.length_eq_zero.mp (Nat.le_zero.mp hl)
    subst hnil
    cases f1 <;> cases f2 <;> rfl
  | succ n ih =>
    intro l hl f1 f2 h1 h2
    cases l with
    | nil => cases f1 <;> cases f2 <;> rfl
    | cons c cs =>
      simp only [List.length_cons] at hl h1 h2
      cases f1 with
      | zero => omega
      | succ g1 =>
        cases f2 with
        | zero => omega
        | succ g2 =>
          by_cases hsp : isSpaceC c = true
          · simp only [collapseSpacesAux, hsp, if_true]
            have : (cs.dropWhile isSpaceC).length ≤ cs.length :=
              (List.dropWhile_sublist _).length_le
            rw [ih _ (by omega) g1 g2 (by omega) (by omega)]
          · simp only [collapseSpacesAux, hsp, Bool.false_eq_true, if_false]
            rw [ih cs (by omega) g1 g2 (by omega) (by omega)]

theorem collapseSpaces_eq_aux (fuel : ℕ) (l : List Char) (h : l.length ≤ fuel) :
    collapseSpacesAux fuel l = collapseSpaces l :=
  collapseSpacesAux_fuel l.length l (le_refl _) fuel l.length h (le_refl _)

theorem collapseSpaces_cons_space {c : Char} {cs : List Char} (h : isSpaceC c = true) :
    collapseSpaces (c :: cs) = ' ' :: collapseSpaces (cs.dropWhile isSpaceC) := by
  rw [collapseSpaces]
  simp only [List.length_cons, collapseSpacesAux, h, if_true]
  exact congrArg _ (collapseSpaces_eq_aux _ _ ((List.dropWhile_sublist _).length_le))

theorem collapseSpaces_cons_nonspace {c : Char} {cs : List Char} (h : ¬isSpaceC c = true) :
    collapseSpaces (c :: cs) = c :: collapseSpaces cs := by
  rw [collapseSpaces]
  simp only [List.length_cons, collapseSpacesAux, h, Bool.false_eq_true, if_false]
  exact congrArg _ (collapseSpaces_eq_aux _ _ (le_refl _))

theorem tokenizeWAux_fuel :
    ∀ n (l : List Char), l.length ≤ n → ∀ f1 f2, l.length ≤ f1 → l.length ≤ f2 →
      tokenizeWAux f1 l = tokenizeWAux f2 l := by
  intro n
  induction n with
  | zero =>
    intro l hl f1 f2 _ _
    have hnil : l = [] := List.length_eq_zero.mp (Nat.le_zero.mp hl)
    subst hnil
    cases f1 <;> cases f2 <;> rfl
  | succ n ih =>
    intro l hl f1 f2 h1 h2
    cases l with
    | nil => cases f1 <;> cases f2 <;> rfl
    | cons c cs =>
      simp only [List.length_cons] at hl h1 h2
      cases f1 with
      | zero => omega
      | succ g1 =>
        cases f2 with
        | zero => omega
        | succ g2 =>
          by_cases hw : isWordChar c = true
          · simp only [tokenizeWAux, hw, if_true]
            have : (cs.dropWhile isWordChar).length ≤ cs.length :=
              (List.dropWhile_sublist _).length_le
            rw [ih _ (by omega) g1 g2 (by omega) (by omega)]
          · simp only [tokenizeWAux, hw, Bool.false_eq_true, if_false]
            rw [ih cs (by omega) g1 g2 (by omega) (by omega)]

theorem tokenizeW_eq_aux (fuel : ℕ) (l : List Char) (h : l.length ≤ fuel) :
    tokenizeWAux fuel l = tokenizeW l :=
  tokenizeWAux_fuel l.length l (le_refl _) fuel l.length h (le_refl _)

theorem tokenizeW_cons_word {c : Char} {cs : List Char} (h : isWordChar c = true) :
    tokenizeW (c :: cs) =
      (c :: cs).takeWhile isWordChar :: tokenizeW (cs.dropWhile isWordChar) := by
  rw [tokenizeW]
  simp only [List.length_cons, tokenizeWAux, h, if_true]
  exact congrArg _ (tokenizeW_eq_aux _ _ ((List.dropWhile_sublist _).length_le))

theorem tokenizeW_cons_nonword {c : Char} {cs : List Char} (h : ¬isWordChar c = true) :
    tokenizeW (c :: cs) = tokenizeW cs := by
  rw [tokenizeW]
  simp only [List.length_cons, tokenizeWAux, h, Bool.false_eq_true, if_false]
  exact tokenizeW_eq_aux _ _ (le_refl _)

/-! ### Characters survive the pipeline passes -/

theorem mem_of_mem_subScan (m : List Char → Option ℕ) :
    ∀ n (l : List Char), l.length ≤ n → ∀ c ∈ subScan m l, c ∈ l := by
  intro n
  induction n with
  | zero =>
    intro l hl c hc
    have hnil : l = [] := List.length_eq_zero.mp (Nat.le_zero.mp hl)
    subst hnil
    simp [subScan, subScanAux] at hc
  | succ n ih =>
    intro l hl c hc
    cases l with
    | nil => simp [subScan, subScanAux] at hc
    | cons x xs =>
      simp only [List.length_cons] at hl
      cases hm : m (x :: xs) with
      | some k =>
        rw [subScan_cons_match hm] at hc
        have hlen : (xs.drop k).length ≤ n := by
          rw [List.length_drop]
          omega
        exact List.mem_cons_of_mem x ((List.drop_sublist k xs).subset (ih _ hlen c hc))
      | none =>
        rw [subScan_cons_nomatch hm] at hc
        rcases List.mem_cons.mp hc with rfl | hc'
        · exact List.mem_cons_self _ _
        · exact List.mem_cons_of_mem x (ih xs (by omega) c hc')

theorem mem_of_mem_subEmails :
    ∀ n (l : List Char), l.length ≤ n → ∀ c ∈ subEmails l, c ∈ l := by
  intro n
  induction n with
  | zero =>
    intro l hl c hc
    have hnil : l = [] := List.length_eq_zero.mp (Nat.le_zero.mp hl)
    subst hnil
    simp [subEmails, subEmailsAux] at hc
  | succ n ih =>
    intro l hl c hc
    cases l with
    | nil => simp [subEmails, subEmailsAux] at hc
    | cons x xs =>
      simp only [List.length_cons] at hl
      by_cases hsp : isSpaceC x = true
      · rw [subEmails_cons_space hsp] at hc
        rcases List.mem_cons.mp hc with rfl | hc'
        · exact List.mem_cons_self _ _
        · exact List.mem_cons_of_mem x (ih xs (by omega) c hc')
      · have hdw : (xs.dropWhile (fun y => !(isSpaceC y))).length ≤ xs.length :=
          (List.dropWhile_sublist _).length_le
        by_cases hat : ((x :: xs).takeWhile (fun y => !(isSpaceC y))).contains '@' = true
        · rw [subEmails_cons_at hsp hat] at hc
          have hlen : ((xs.dropWhile (fun y => !(isSpaceC y))).drop 1).length ≤ n := by
            rw [List.length_drop]
            omega
          exact List.mem_cons_of_mem x
            ((List.dropWhile_sublist _).subset
              ((List.drop_sublist 1 _).subset (ih _ hlen c hc)))
        · rw [subEmails_cons_noat hsp hat] at hc
          rcases List.mem_append.mp hc with hc' | hc'
          · exact (List.takeWhile_sublist _).subset hc'
          · exact List.mem_cons_of_mem x
              ((List.dropWhile_sublist _).subset (ih _ (by omega) c hc'))

theorem mem_of_mem_punctToSpace {l : List Char} {c : Char} (hc : c ∈ punctToSpace l) :
    c ∈ l ∨ c = ' ' := by
  obtain ⟨x, _, hfx⟩ := List.mem_map.mp hc
  by_cases hx : (isWordChar x || isSpaceC x) = true
  · rw [if_pos hx] at hfx
    subst hfx
    left
    assumption
  · rw [if_neg hx] at hfx
    right
    exact hfx.symm

theorem mem_of_mem_collapseSpaces :
    ∀ n (l : List Char), l.length ≤ n → ∀ c ∈ collapseSpaces l, c ∈ l ∨ c = ' ' := by
  intro n
  induction n with
  | zero =>
    intro l hl c hc
    have hnil : l = [] := List.length_eq_zero.mp (Nat.le_zero.mp hl)
    subst hnil
    simp [collapseSpaces, collapseSpacesAux] at hc
  | succ n ih =>
    intro l hl c hc
    cases l with
    | nil => simp [collapseSpaces, collapseSpacesAux] at hc
    | cons x xs =>
      simp only [List.length_cons] at hl
      by_cases hsp : isSpaceC x = true
      · rw [collapseSpaces_cons_space hsp] at hc
        rcases List.mem_cons.mp hc with rfl | hc'
        · right
          rfl
        · have hdw : (xs.dropWhile isSpaceC).length ≤ xs.length :=
            (List.dropWhile_sublist _).length_le
          rcases ih _ (by omega) c hc' with h | h
          · exact Or.inl (List.mem_cons_of_mem x ((List.dropWhile_sublist _).subset h))
          · exact Or.inr h
      · rw [collapseSpaces_cons_nonspace hsp] at hc
        rcases List.mem_cons.mp hc with rfl | hc'
        · exact Or.inl (List.mem_cons_self _ _)
        · rcases ih xs (by omega) c hc' with h | h
          · exact Or.inl (List.mem_cons_of_mem x h)
          · exact Or.inr h

theorem mem_of_mem_stripSpaces {l : List Char} {c : Char} (hc : c ∈ stripSpaces l) : c ∈ l := by
  rw [stripSpaces] at hc
  rw [List.mem_reverse] at hc
  exact (List.dropWhile_sublist _).subset
    (List.mem_reverse.mp ((List.dropWhile_sublist _).subset hc))

theorem toLower_fixed_of_mem_map {l : List Char} {c : Char}
    (hc : c ∈ l.map Char.toLower) : Char.toLower c = c := by
  obtain ⟨x, _, hfx⟩ := List.mem_map.mp hc
  rw [← hfx, toLower_toLower]

/-! ### Tokens produced by the tokenizer -/

theorem tokenizeW_token_spec :
    ∀ n (l : List Char), l.length ≤ n → ∀ tok ∈ tokenizeW l,
      tok ≠ [] ∧ ∀ c ∈ tok, isWordChar c = true ∧ c ∈ l := by
  intro n
  induction n with
  | zero =>
    intro l hl tok htok
    have hnil : l = [] := List.length_eq_zero.mp (Nat.le_zero.mp hl)
    subst hnil
    simp [tokenizeW, tokenizeWAux] at htok
  | succ n ih =>
    intro l hl tok htok
    cases l with
    | nil => simp [tokenizeW, tokenizeWAux] at htok
    | cons x xs =>
      simp only [List.length_cons] at hl
      by_cases hw : isWordChar x = true
      · rw [tokenizeW_cons_word hw] at htok
        rcases List.mem_cons.mp htok with rfl | htok'
        · rw [List.takeWhile_cons_of_pos hw]
          refine ⟨List.cons_ne_nil _ _, ?_⟩
          intro c hc
          rcases List.mem_cons.mp hc with rfl | hc'
          · exact ⟨hw, List.mem_cons_self _ _⟩
          · exact ⟨List.mem_takeWhile_imp hc',
              List.mem_cons_of_mem x ((List.takeWhile_sublist _).subset hc')⟩
        · have hdw : (xs.dropWhile isWordChar).length ≤ xs.length :=
            (List.dropWhile_sublist _).length_le
          obtain ⟨h1, h2⟩ := ih _ (by omega) tok htok'
          exact ⟨h1, fun c hc => ⟨(h2 c hc).1,
            List.mem_cons_of_mem x ((List.dropWhile_sublist _).subset (h2 c hc).2)⟩⟩
      · rw [tokenizeW_cons_nonword hw] at htok
        obtain ⟨h1, h2⟩ := ih xs (by omega) tok htok
        exact ⟨h1, fun c hc => ⟨(h2 c hc).1, List.mem_cons_of_mem x (h2 c hc).2⟩⟩

/-! ### The deletion passes are trivial on clean strings -/

theorem subScan_of_no_match (m : List Char → Option ℕ) :
    ∀ n (l : List Char), l.length ≤ n → hasMatch m l = false → subScan m l = l := by
  intro n
  induction n with
  | zero =>
    intro l hl _
    have hnil : l = [] := List.length_eq_zero.mp (Nat.le_zero.mp hl)
    subst hnil
    rfl
  | succ n ih =>
    intro l hl h
    cases l with
    | nil => rfl
    | cons x xs =>
      simp only [List.length_cons] at hl
      rw [hasMatch] at h
      rw [Bool.or_eq_false_iff] at h
      have hm : m (x :: xs) = none := Option.not_isSome_iff_eq_none.mp (by simp [h.1])
      rw [subScan_cons_nomatch hm, ih xs (by omega) h.2]

theorem subEmails_of_no_at :
    ∀ n (l : List Char), l.length ≤ n → '@' ∉ l → subEmails l = l := by
  intro n
  induction n with
  | zero =>
    intro l hl _
    have hnil : l = [] := List.length_eq_zero.mp (Nat.le_zero.mp hl)
    subst hnil
    rfl
  | succ n ih =>
    intro l hl h
    cases l with
    | nil => rfl
    | cons x xs =>
      simp only [List.length_cons] at hl
      have hxs : '@' ∉ xs := fun hmem => h (List.mem_cons_of_mem x hmem)
      by_cases hsp : isSpaceC x = true
      · rw [subEmails_cons_space hsp, ih xs (by omega) hxs]
      · have hat : ¬((x :: xs).takeWhile (fun y => !(isSpaceC y))).contains '@' = true := by
          intro hcon
          exact h ((List.takeWhile_sublist _).subset (by simpa using hcon))
        rw [subEmails_cons_noat hsp hat]
        have hdw : (xs.dropWhile (fun y => !(isSpaceC y))).length ≤ xs.length :=
          (List.dropWhile_sublist _).length_le
        rw [ih _ (by omega) (fun hmem => hxs ((List.dropWhile_sublist _).subset hmem))]
        rw [@List.takeWhile_cons_of_pos _ (fun y => !(isSpaceC y)) x xs
          (by simp [Bool.eq_false_iff.mpr hsp]), List.cons_append,
          List.takeWhile_append_dropWhile]

theorem punctToSpace_id {l : List Char}
    (h : ∀ c ∈ l, isWordChar c = true ∨ isSpaceC c = true) : punctToSpace l = l := by
  rw [punctToSpace]
  have : ∀ c ∈ l, (if isWordChar c || isSpaceC c then c else ' ') = id c := by
    intro c hc
    rcases h c hc with h' | h' <;> simp [h']
  rw [List.map_congr_left this, List.map_id]

theorem map_toLower_id {l : List Char} (h : ∀ c ∈ l, Char.toLower c = c) :
    l.map Char.toLower = l := by
  have : ∀ c ∈ l, Char.toLower c = id c := h
  rw [List.map_congr_left this, List.map_id]

/-! ### Space-joined token lists -/

theorem mem_joinTokens :
    ∀ (ts : List (List Char)) (c : Char), c ∈ joinTokens ts → c = ' ' ∨ ∃ tok ∈ ts, c ∈ tok := by
  intro ts
  induction ts with
  | nil =>
    intro c hc
    simp [joinTokens] at hc
  | cons tok rest ih =>
    intro c hc
    cases rest with
    | nil =>
      rw [joinTokens] at hc
      exact Or.inr ⟨tok, List.mem_cons_self _ _, hc⟩
    | cons t2 rest' =>
      rw [joinTokens] at hc
      rcases List.mem_append.mp hc with hc' | hc'
      · exact Or.inr ⟨tok, List.mem_cons_self _ _, hc'⟩
      · rcases List.mem_cons.mp hc' with rfl | hc''
        · exact Or.inl rfl
        · rcases ih c hc'' with h | ⟨tok', htok', hctok'⟩
          · exact Or.inl h
          · exact Or.inr ⟨tok', List.mem_cons_of_mem _ htok', hctok'⟩

theorem joinTokens_head_nonspace {ts : List (List Char)}
    (hgood : ∀ tok ∈ ts, tok ≠ [] ∧ ∀ c ∈ tok, isSpaceC c = false) (hne : ts ≠ []) :
    ∃ d dr, joinTokens ts = d :: dr ∧ isSpaceC d = false := by
  cases ts with
  | nil => exact absurd rfl hne
  | cons tok rest =>
    obtain ⟨htne, hts⟩ := hgood tok (List.mem_cons_self _ _)
    obtain ⟨d, dt, rfl⟩ := List.exists_cons_of_ne_nil htne
    have hd : isSpaceC d = false := hts d (List.mem_cons_self _ _)
    cases rest with
    | nil => exact ⟨d, dt, by rw [joinTokens], hd⟩
    | cons t2 rest' => exact ⟨d, dt ++ ' ' :: joinTokens (t2 :: rest'), by rw [joinTokens]; rfl, hd⟩

theorem joinTokens_reverse_head_nonspace :
    ∀ (ts : List (List Char)),
      (∀ tok ∈ ts, tok ≠ [] ∧ ∀ c ∈ tok, isSpaceC c = false) → ts ≠ [] →
      ∃ d dr, (joinTokens ts).reverse = d :: dr ∧ isSpaceC d = false := by
  intro ts
  induction ts with
  | nil => exact fun _ hne => absurd rfl hne
  | cons tok rest ih =>
    intro hgood _
    obtain ⟨htne, hts⟩ := hgood tok (List.mem_cons_self _ _)
    cases rest with
    | nil =>
      rw [joinTokens]
      have hne' : tok.reverse ≠ [] := by
        simpa using htne
      obtain ⟨d, dr, hd⟩ := List.exists_cons_of_ne_nil hne'
      refine ⟨d, dr, hd, hts d ?_⟩
      rw [← List.mem_reverse, hd]
      exact List.mem_cons_self _ _
    | cons t2 rest' =>
      obtain ⟨d, dr, hrev, hd⟩ := ih (fun tok' h' => hgood tok' (List.mem_cons_of_mem _ h'))
        (List.cons_ne_nil _ _)
      refine ⟨d, dr ++ ' ' :: tok.reverse, ?_, hd⟩
      rw [joinTokens, List.reverse_append, List.reverse_cons, List.append_assoc, hrev]
      rfl

theorem stripSpaces_joinTokens {ts : List (List Char)}
    (hgood : ∀ tok ∈ ts, tok ≠ [] ∧ ∀ c ∈ tok, isSpaceC c = false) :
    stripSpaces (joinTokens ts) = joinTokens ts := by
  cases hts : ts with
  | nil => rfl
  | cons tok rest =>
    rw [← hts]
    obtain ⟨d, dr, hj, hd⟩ := joinTokens_head_nonspace hgood (by rw [hts]; exact List.cons_ne_nil _ _)
    obtain ⟨e, er, hrev, he⟩ := joinTokens_reverse_head_nonspace ts hgood
      (by rw [hts]; exact List.cons_ne_nil _ _)
    rw [stripSpaces, hj, List.dropWhile_cons_of_neg (by simp [hd]), ← hj, hrev,
      List.dropWhile_cons_of_neg (by simp [he]), ← hrev, List.reverse_reverse]

theorem collapseSpaces_append_nonspace :
    ∀ (tok : List Char), (∀ c ∈ tok, isSpaceC c = false) →
      ∀ r, collapseSpaces (tok ++ r) = tok ++ collapseSpaces r := by
  intro tok
  induction tok with
  | nil => exact fun _ r => rfl
  | cons d dt ih =>
    intro h r
    rw [List.cons_append, collapseSpaces_cons_nonspace
      (by simp [h d (List.mem_cons_self _ _)]), ih (fun c hc => h c (List.mem_cons_of_mem _ hc)) r]
    rfl

theorem collapseSpaces_joinTokens :
    ∀ (ts : List (List Char)), (∀ tok ∈ ts, tok ≠ [] ∧ ∀ c ∈ tok, isSpaceC c = false) →
      collapseSpaces (joinTokens ts) = joinTokens ts := by
  intro ts
  induction ts with
  | nil => exact fun _ => rfl
  | cons tok rest ih =>
    intro hgood
    obtain ⟨_, hts⟩ := hgood tok (List.mem_cons_self _ _)
    cases rest with
    | nil =>
      rw [joinTokens]
      have h := collapseSpaces_append_nonspace tok hts []
      rw [show collapseSpaces ([] : List Char) = [] from rfl, List.append_nil] at h
      exact h
    | cons t2 rest' =>
      rw [joinTokens, collapseSpaces_append_nonspace tok hts,
        collapseSpaces_cons_space (by decide)]
      obtain ⟨d, dr, hj, hd⟩ := joinTokens_head_nonspace
        (fun tok' h' => hgood tok' (List.mem_cons_of_mem _ h')) (List.cons_ne_nil _ _)
      rw [hj, List.dropWhile_cons_of_neg (by simp [hd]), ← hj,
        ih (fun tok' h' => hgood tok' (List.mem_cons_of_mem _ h'))]

theorem takeWhile_append_of_all {p : Char → Bool} :
    ∀ (l₁ : List Char), (∀ c ∈ l₁, p c = true) →
      ∀ l₂, List.takeWhile p (l₁ ++ l₂) = l₁ ++ List.takeWhile p l₂ := by
  intro l₁
  induction l₁ with
  | nil => exact fun _ l₂ => rfl
  | cons d dt ih =>
    intro h l₂
    rw [List.cons_append, List.takeWhile_cons_of_pos (h d (List.mem_cons_self _ _)),
      ih (fun c hc => h c (List.mem_cons_of_mem _ hc)) l₂, List.cons_append]

theorem dropWhile_append_of_all {p : Char → Bool} :
    ∀ (l₁ : List Char), (∀ c ∈ l₁, p c = true) →
      ∀ l₂, List.dropWhile p (l₁ ++ l₂) = List.dropWhile p l₂ := by
  intro l₁
  induction l₁ with
  | nil => exact fun _ l₂ => rfl
  | cons d dt ih =>
    intro h l₂
    rw [List.cons_append, List.dropWhile_cons_of_pos (h d (List.mem_cons_self _ _)),
      ih (fun c hc => h c (List.mem_cons_of_mem _ hc)) l₂]

theorem tokenizeW_joinTokens :
    ∀ (ts : List (List Char)), (∀ tok ∈ ts, tok ≠ [] ∧ ∀ c ∈ tok, isWordChar c = true) →
      tokenizeW (joinTokens ts) = ts := by
  intro ts
  induction ts with
  | nil => exact fun _ => rfl
  | cons tok rest ih =>
    intro hgood
    obtain ⟨htne, hts⟩ := hgood tok (List.mem_cons_self _ _)
    obtain ⟨d, dt, rfl⟩ := List.exists_cons_of_ne_nil htne
    have hd : isWordChar d = true := hts d (List.mem_cons_self _ _)
    have hdt : ∀ c ∈ dt, isWordChar c = true := fun c hc => hts c (List.mem_cons_of_mem _ hc)
    cases rest with
    | nil =>
      rw [joinTokens, tokenizeW_cons_word hd]
      have h1 : List.takeWhile isWordChar (d :: dt) = d :: dt := by
        have := takeWhile_append_of_all (d :: dt) hts []
        simpa using this
      have h2 : List.dropWhile isWordChar dt = [] := by
        have := dropWhile_append_of_all dt hdt []
        simpa using this
      rw [h1, h2]
      rfl
    | cons t2 rest' =>
      rw [joinTokens, List.cons_append, tokenizeW_cons_word hd]
      have h1 : List.takeWhile isWordChar (d :: (dt ++ ' ' :: joinTokens (t2 :: rest'))) =
          d :: dt := by
        rw [← List.cons_append, takeWhile_append_of_all (d :: dt) hts,
          List.takeWhile_cons_of_neg (by decide)]
        exact List.append_nil _
      have h2 : List.dropWhile isWordChar (dt ++ ' ' :: joinTokens (t2 :: rest')) =
          ' ' :: joinTokens (t2 :: rest') := by
        rw [dropWhile_append_of_all dt hdt, List.dropWhile_cons_of_neg (by decide)]
      rw [h1, h2, tokenizeW_cons_nonword (by decide),
        ih (fun tok' h' => hgood tok' (List.mem_cons_of_mem _ h'))]

theorem map_LEMMATIZER_id (ts : List (List Char)) : List.map LEMMATIZER ts = ts :=
  List.map_id ts

/-- Every `preprocess_text` output is a space-joined list of tokens, each
nonempty, longer than one character, no stop word, and consisting of
word characters already in lower case. -/
theorem preprocess_text_structure (t : String) :
    ∃ ts, preprocess_text t = String.mk (joinTokens ts) ∧
      ∀ tok ∈ ts, tok ≠ [] ∧ 1 < tok.length ∧ isStopWord tok = false ∧
        ∀ c ∈ tok, isWordChar c = true ∧ Char.toLower c = c := by
  have hmain : preprocess_text t = String.mk (joinTokens
      ((tokenizeW (stripSpaces (collapseSpaces (punctToSpace (subScan phoneMatch
        (subEmails (subScan urlMatch (t.toList.map Char.toLower)))))))).filter
        (fun tok => !(isStopWord tok) && tok.length > 1))) := by
    rw [preprocess_text, map_LEMMATIZER_id]
  refine ⟨_, hmain, ?_⟩
  intro tok htok
  rw [List.mem_filter] at htok
  obtain ⟨htokW, hP⟩ := htok
  rw [Bool.and_eq_true] at hP
  obtain ⟨hstop, hlen⟩ := hP
  have hstop' : isStopWord tok = false := by
    rwa [Bool.not_eq_true'] at hstop
  have hlen' : 1 < tok.length := by
    simpa using hlen
  have hspec := tokenizeW_token_spec _ _ (le_refl _) tok htokW
  refine ⟨hspec.1, hlen', hstop', fun c hc => ⟨(hspec.2 c hc).1, ?_⟩⟩
  have hword := (hspec.2 c hc).1
  have hne : c ≠ ' ' := by
    intro h
    subst h
    rw [show isWordChar ' ' = false from by decide] at hword
    cases hword
  have h1 := mem_of_mem_stripSpaces (hspec.2 c hc).2
  rcases mem_of_mem_collapseSpaces _ _ (le_refl _) c h1 with h2 | h2
  · rcases mem_of_mem_punctToSpace h2 with h3 | h3
    · have h4 := mem_of_mem_subScan phoneMatch _ _ (le_refl _) c h3
      have h5 := mem_of_mem_subEmails _ _ (le_refl _) c h4
      have h6 := mem_of_mem_subScan urlMatch _ _ (le_refl _) c h5
      exact toLower_fixed_of_mem_map h6
    · exact absurd h3 hne
  · exact absurd h2 hne

/-- A space-joined list of good tokens with no residual URL/phone pattern
is a fixed point of `preprocess_text`: every pass acts trivially on it. -/
theorem preprocess_text_fixed (ts : List (List Char))
    (hgood : ∀ tok ∈ ts, tok ≠ [] ∧ 1 < tok.length ∧ isStopWord tok = false ∧
      ∀ c ∈ tok, isWordChar c = true ∧ Char.toLower c = c)
    (hres : noResidualPattern (String.mk (joinTokens ts)) = true) :
    preprocess_text (String.mk (joinTokens ts)) = String.mk (joinTokens ts) := by
  rw [noResidualPattern, Bool.and_eq_true, Bool.not_eq_true', Bool.not_eq_true'] at hres
  obtain ⟨hurl, hphone⟩ := hres
  have htl : (String.mk (joinTokens ts)).toList = joinTokens ts := rfl
  rw [htl] at hurl hphone
  have hchars : ∀ c ∈ joinTokens ts, (isWordChar c = true ∧ Char.toLower c = c) ∨ c = ' ' := by
    intro c hc
    rcases mem_joinTokens ts c hc with h | ⟨tok, htok, hctok⟩
    · exact Or.inr h
    · exact Or.inl ((hgood tok htok).2.2.2 c hctok)
  have hlower : ∀ c ∈ (joinTokens ts), Char.toLower c = c := by
    intro c hc
    rcases hchars c hc with ⟨_, h⟩ | h
    · exact h
    · subst h
      decide
  have hwordspace : ∀ c ∈ joinTokens ts, isWordChar c = true ∨ isSpaceC c = true := by
    intro c hc
    rcases hchars c hc with ⟨h, _⟩ | h
    · exact Or.inl h
    · subst h
      exact Or.inr (by decide)
  have hnoat : '@' ∉ joinTokens ts := by
    intro hmem
    rcases hchars '@' hmem with ⟨h, _⟩ | h
    · rw [show isWordChar '@' = false from by decide] at h
      cases h
    · exact absurd h (by decide)
  have hgood2 : ∀ tok ∈ ts, tok ≠ [] ∧ ∀ c ∈ tok, isSpaceC c = false := fun tok htok =>
    ⟨(hgood tok htok).1, fun c hc => isSpaceC_of_isWordChar ((hgood tok htok).2.2.2 c hc).1⟩
  have hgoodW : ∀ tok ∈ ts, tok ≠ [] ∧ ∀ c ∈ tok, isWordChar c = true := fun tok htok =>
    ⟨(hgood tok htok).1, fun c hc => ((hgood tok htok).2.2.2 c hc).1⟩
  have hfilt : ts.filter (fun tok => !(isStopWord tok) && tok.length > 1) = ts := by
    rw [List.filter_eq_self]
    intro tok htok
    rw [Bool.and_eq_true, Bool.not_eq_true']
    exact ⟨(hgood tok htok).2.2.1, by simpa using (hgood tok htok).2.1⟩
  rw [preprocess_text]
  rw [htl, map_toLower_id hlower,
    subScan_of_no_match urlMatch _ _ (le_refl _) hurl,
    subEmails_of_no_at _ _ (le_refl _) hnoat,
    subScan_of_no_match phoneMatch _ _ (le_refl _) hphone,
    punctToSpace_id hwordspace,
    collapseSpaces_joinTokens ts hgood2,
    stripSpaces_joinTokens hgood2,
    tokenizeW_joinTokens ts hgoodW,
    hfilt, map_LEMMATIZER_id]

/-- C9 is refuted: normalizing `"111 123,456,7890 222,3333"` once yields
`"111 123 456 7890 222 3333"` (the commas become spaces), a second pass
deletes the newly exposed phone-number pattern `123 456 7890` leaving
`"111 222 3333"`, and a third pass deletes that string — itself now a
phone-number pattern — leaving `""`.  So `normalize(normalize(t))` is not
a fixed point of `normalize`, and the divergence is pattern deletion, not
the stopword/length filtering the claim's proviso allows. -/
theorem c9_normalize_counterexample :
    preprocess_text (preprocess_text (preprocess_text "111 123,456,7890 222,3333")) ≠
      preprocess_text (preprocess_text "111 123,456,7890 222,3333") := by
  decide

/-- C9 amended: a doubly-normalized string is a fixed point of `normalize`
*provided* it contains no residual URL or phone-number pattern (each pass
can expose new deletable patterns, so convergence within one extra pass is
not guaranteed in general). -/
theorem c9_normalize_amended (t : String)
    (h : noResidualPattern (preprocess_text (preprocess_text t)) = true) :
    preprocess_text (preprocess_text (preprocess_text t)) =
      preprocess_text (preprocess_text t) := by
  obtain ⟨ts, heq, hgood⟩ := preprocess_text_structure (preprocess_text t)
  rw [heq] at h ⊢
  exact preprocess_text_fixed ts hgood h

/-- Witness for the amended C9 at a concrete input. -/
theorem c9_normalize_amended_witness :
    noResidualPattern (preprocess_text (preprocess_text "Python developer wanted")) = true ∧
    preprocess_text (preprocess_text (preprocess_text "Python developer wanted")) =
      preprocess_text (preprocess_text "Python developer wanted") :=
  ⟨by decide, c9_normalize_amended "Python developer wanted" (by decide)⟩

end CVScanPro
